import Mathlib

/-!
Verification of the /// interpreter (CarlosLunaMota/Slashes).

The repository ships two Python interpreters for the /// language:

* `slashes(string, verbose=0, color=0)` in `src/slashes.py` (the same scanner
  and rewriter appears in `src/Slashes.py`): an index-based scanner walks the
  buffer, yields the output-prefix, extracts pattern and replacement between
  unescaped `/` delimiters, and then rewrites the remainder to a fixpoint with
  `while pat in string: string = string.replace(pat, rep, 1)`.
* `S(s)` in `src/slashes.py`, a compact slice-based variant whose rewriting
  loop is `while s and b[0] in s: s = s.replace(*b)`.

Strings are embedded as `List Char`.  The generator's observable behaviour is
embedded as a fuel-indexed run function: `.halt out` (the generator finished,
having yielded `out`), `.crash out` (a Python `IndexError` escaped after
yielding `out` — this really happens on a lone trailing backslash), and
`.more out` (the budget ran out with `out` yielded so far; a run that returns
`.more` for every fuel is a divergent run).  With default arguments
(`verbose=0, color=0`) all debug branches of the Python code are inert, so
they do not appear in the embedding.
-/

/-- Result of one scanning loop of `slashes` (`src/slashes.py:199-225`): either
the loop stopped (`ok seg i`: `seg` are the characters yielded/appended and `i`
the final value of the index, sitting on the delimiter when one was found), or
evaluating `string[i]` raised `IndexError` (`err seg`: a lone escape marker at
the end of the buffer made `i += 1` step to `i == N` before `string[i]` was
read). -/
inductive ScanRes : Type
  | ok (seg : List Char) (i : Nat)
  | err (seg : List Char)
deriving DecidableEq

/-- Prepend one produced character to the segment of a `ScanRes`. -/
def ScanRes.push : ScanRes → Char → ScanRes
  | .ok seg i, c => .ok (c :: seg) i
  | .err seg, c => .err (c :: seg)

/-- The scanning loop of `slashes`, index-based as in the source:

    while i < N:
        if string[i] == "/" : break
        if string[i] == "\\": i += 1
        <emit/append string[i]>
        i += 1

The first argument is a recursion budget: every pass of the loop increases `i`
by at least one, so running the loop with budget `k` from index `i` is the
whole loop whenever `s.length ≤ k + i` (in particular budget `s.length` always
suffices); `driverStep` only calls it that way.  When the budget is spent the
loop can only be at `i ≥ N`, which is the loop's own exit condition. -/
def scanSegAux (s : List Char) : Nat → Nat → ScanRes
  | 0, i => .ok [] i
  | k + 1, i =>
    if h : i < s.length then
      if s[i] = '/' then .ok [] i
      else if s[i] = '\\' then
        if h2 : i + 1 < s.length then
          (scanSegAux s k (i + 2)).push s[i + 1]
        else .err []
      else (scanSegAux s k (i + 1)).push s[i]
    else .ok [] i

/-- Outcome of one pass of the outer `while string:` loop of `slashes`
(`src/slashes.py:194-233`), up to the point where the substitution loop would
run: the run crashes (`IndexError`), halts (`if i >= N: break`, fewer than
three unescaped delimiters), or continues with the extracted rule.  `out` is
the output-prefix yielded by the first scanning loop. -/
inductive StepRes : Type
  | crash (out : List Char)
  | halt (out : List Char)
  | next (out pat rep rest : List Char)
deriving DecidableEq

/-- One pass of the outer loop of `slashes` (`src/slashes.py:194-233`): scan
the output-prefix from index `0`, the pattern from one past the first
unescaped `/`, the replacement from one past the second; halt if the index ran
off the end (`if i >= N: break`), otherwise hand over the rule and the
remainder `string[i+1:]`. -/
def driverStep (s : List Char) : StepRes :=
  match scanSegAux s s.length 0 with
  | .err out => .crash out
  | .ok out i1 =>
    match scanSegAux s s.length (i1 + 1) with
    | .err _ => .crash out
    | .ok pat i2 =>
      match scanSegAux s s.length (i2 + 1) with
      | .err _ => .crash out
      | .ok rep i3 =>
        if s.length ≤ i3 then .halt out
        else .next out pat rep (s.drop (i3 + 1))

/-- Python's substring test `pat in s`: some suffix of `s` has `pat` as a
prefix.  The empty pattern is contained in every buffer, including the empty
one, exactly as in Python. -/
def occurs (pat : List Char) : List Char → Bool
  | [] => pat.isEmpty
  | c :: t => pat.isPrefixOf (c :: t) || occurs pat t

/-- Python's `s.replace(pat, rep, 1)`: replace the leftmost occurrence of
`pat` in `s` by `rep`; with an empty `pat` this inserts `rep` in front of `s`;
with no occurrence it returns `s` unchanged. -/
def replaceFirst : List Char → List Char → List Char → List Char
  | s, pat, rep =>
    if pat.isPrefixOf s then rep ++ s.drop pat.length
    else
      match s with
      | [] => []
      | c :: t => c :: replaceFirst t pat rep

/-- The Rewriter loop of `slashes` (`src/slashes.py:243-244`):

    while pat in string:
        string = string.replace(pat, rep, 1)

run with a step budget: `some s` is the fixpoint reached within the budget,
`none` means the pattern still occurred when the budget was spent. -/
def substFix (pat rep : List Char) : Nat → List Char → Option (List Char)
  | 0, s => if occurs pat s then none else some s
  | n + 1, s =>
    if occurs pat s then substFix pat rep n (replaceFirst s pat rep)
    else some s

/-- Fuel-indexed observable result of a run: the generator finished after
yielding `out`, raised `IndexError` after yielding `out`, or the budget ran
out with `out` yielded so far. -/
inductive RunRes : Type
  | halt (out : List Char)
  | crash (out : List Char)
  | more (out : List Char)
deriving DecidableEq

/-- Prepend already-yielded characters to the output of a later result. -/
def RunRes.addOut : RunRes → List Char → RunRes
  | .halt o, pre => .halt (pre ++ o)
  | .crash o, pre => .crash (pre ++ o)
  | .more o, pre => .more (pre ++ o)

/-- The interpreter `slashes` of `src/slashes.py:183-256` with the default
`verbose=0, color=0` (all debug branches inert), as a fuel-indexed run:
`while string:` repeats `driverStep` and the `substFix` rewriting.  One unit
of fuel is spent per outer iteration and per substitution step. -/
def slashes : Nat → List Char → RunRes
  | 0, _ => .more []
  | n + 1, s =>
    if s.isEmpty then .halt []
    else
      match driverStep s with
      | .crash out => .crash out
      | .halt out => .halt out
      | .next out pat rep rest =>
        match substFix pat rep n rest with
        | none => .more out
        | some s2 => (slashes n s2).addOut out

/-- Result of one segment scan of the compact interpreter `S`
(`src/slashes.py:264-273`), which slices the buffer instead of indexing it:
the scan hit an unescaped `/` (`delim seg rest`, `rest` is the buffer after
the delimiter), ran the buffer out cleanly (`done seg`), or raised
`IndexError` on a lone trailing escape marker (`fail seg`). -/
inductive SegRes : Type
  | delim (seg rest : List Char)
  | done (seg : List Char)
  | fail (seg : List Char)
deriving DecidableEq

/-- Prepend one produced character to the segment of a `SegRes`. -/
def SegRes.push : SegRes → Char → SegRes
  | .delim seg rest, c => .delim (c :: seg) rest
  | .done seg, c => .done (c :: seg)
  | .fail seg, c => .fail (c :: seg)

/-- One inner `while s:` loop of `S` (`src/slashes.py:268-272`):

    while s:
      if s[0] == "/" :      s = s[1:]; break
      if s[0] == "\\":      s = s[1:]
      <emit/append s[0]>;   s = s[1:]

slice-based, directly structural on the buffer. -/
def scanL : List Char → SegRes
  | [] => .done []
  | c :: t =>
    if c = '/' then .delim [] t
    else if c = '\\' then
      match t with
      | [] => .fail []
      | d :: u => (scanL u).push d
    else (scanL t).push c

/-- The three scans of `S`'s `for t in (0,1,2)` loop, flattened: if any scan
exhausts the buffer, the remaining scans are no-ops on an empty buffer and the
outer `while s:` loop then exits, so the run halts with the prefix yielded so
far. -/
def driverStepS (s : List Char) : StepRes :=
  match scanL s with
  | .fail out => .crash out
  | .done out => .halt out
  | .delim out s1 =>
    match scanL s1 with
    | .fail _ => .crash out
    | .done _ => .halt out
    | .delim pat s2 =>
      match scanL s2 with
      | .fail _ => .crash out
      | .done _ => .halt out
      | .delim rep rest => .next out pat rep rest

/-- The rewriting loop of `S` (`src/slashes.py:273`):

    while s and b[0] in s: s = s.replace(*b)

identical to `substFix` except for the extra truthiness test `s`: an empty
buffer never enters the loop, even under an empty pattern. -/
def substFixS (pat rep : List Char) : Nat → List Char → Option (List Char)
  | 0, s => if !s.isEmpty && occurs pat s then none else some s
  | n + 1, s =>
    if !s.isEmpty && occurs pat s then substFixS pat rep n (replaceFirst s pat rep)
    else some s

/-- The compact interpreter `S` of `src/slashes.py:264-273` as a fuel-indexed
run, with the same fuel accounting as `slashes`. -/
def S : Nat → List Char → RunRes
  | 0, _ => .more []
  | n + 1, s =>
    if s.isEmpty then .halt []
    else
      match driverStepS s with
      | .crash out => .crash out
      | .halt out => .halt out
      | .next out pat rep rest =>
        match substFixS pat rep n rest with
        | none => .more out
        | some s2 => (S n s2).addOut out

/-- The run `slashes s` halts normally with output `out` (for some fuel, hence, by
`slashes_mono_halt`, for every larger fuel). -/
def haltsWith (s out : List Char) : Prop :=
  ∃ n, slashes n s = RunRes.halt out

/-- The run `slashes s` diverges without ever yielding a character: whatever the
budget, the run is still unfinished with empty output. -/
def divergesSilent (s : List Char) : Prop :=
  ∀ n, slashes n s = RunRes.more []

-- Spec-side description of the Scanner (§4.1 of the spec), used to state C1,
-- C3 and C4: the content of a segment and the remainder after its delimiter,
-- written by direct recursion on the buffer.

/-- Modelled from the spec: the characters of the current segment, i.e.
everything before the first unescaped `/`, with each escape marker dropped and
the character following it (even a `/` or a `\`) contributed literally; a
lone trailing marker contributes nothing. -/
def segOf : List Char → List Char
  | [] => []
  | c :: t =>
    if c = '/' then []
    else if c = '\\' then
      match t with
      | [] => []
      | d :: u => d :: segOf u
    else c :: segOf t

/-- Modelled from the spec: the remainder of the buffer after the first
unescaped `/` (empty when there is none). -/
def restOf : List Char → List Char
  | [] => []
  | c :: t =>
    if c = '/' then t
    else if c = '\\' then
      match t with
      | [] => []
      | _ :: u => restOf u
    else restOf t

/-- Modelled from the spec: the number of unescaped `/` delimiters of the
buffer (escape pairs are skipped whole, so an escaped `/` is not counted). -/
def unescapedDelims : List Char → Nat
  | [] => 0
  | c :: t =>
    if c = '/' then unescapedDelims t + 1
    else if c = '\\' then
      match t with
      | [] => 0
      | _ :: u => unescapedDelims u
    else unescapedDelims t

/-- The buffer does not end in a lone unescaped escape marker (scanning it
never reads past the end). -/
def cleanTail : List Char → Bool
  | [] => true
  | c :: t =>
    if c = '\\' then
      match t with
      | [] => false
      | _ :: u => cleanTail u
    else cleanTail t

/-- Modelled from the spec: the input with every escape marker removed and
the character following each marker passed through literally (a lone trailing
marker contributes nothing). -/
def unescape : List Char → List Char
  | [] => []
  | c :: t =>
    if c = '\\' then
      match t with
      | [] => []
      | d :: u => d :: unescape u
    else c :: unescape t

-- Sample programs from `src/slashes.py:286-287`.

/-- The sample program `HELLO_WORLD_1` of `src/slashes.py:286`. -/
def HELLO_WORLD_1 : List Char := "/ world! world!/Hello,/ world! world! world!".toList

/-- The sample program `HELLO_WORLD_2` of `src/slashes.py:287`. -/
def HELLO_WORLD_2 : List Char := "/foo/Hello, world!//bar/foo/bar".toList

-- Sanity checks of the embedding on concrete programs.

example : slashes 1 "Hello, world!".toList = RunRes.halt "Hello, world!".toList := by rfl

example : slashes 2 HELLO_WORLD_1 = RunRes.halt "Hello, world!".toList := by rfl

example : slashes 3 HELLO_WORLD_2 = RunRes.halt "Hello, world!".toList := by rfl

example : slashes 1 "//anything".toList = RunRes.halt [] := by rfl

example : slashes 1 "\\".toList = RunRes.crash [] := by rfl

example : slashes 1 "a\\".toList = RunRes.crash ['a'] := by rfl

example : slashes 9 "///".toList = RunRes.more [] := by rfl

example : S 2 "///".toList = RunRes.halt [] := by rfl

example : driverStep "a\\/b/c/d/e".toList =
    StepRes.next ['a', '/', 'b'] ['c'] ['d'] ['e'] := by rfl

-- Unfolding lemmas for the one-step behaviour of the buffer-walking
-- functions on a cons cell (their nested match on the tail keeps the
-- equation compiler from producing these directly).

theorem scanL_cons (c : Char) (t : List Char) :
    scanL (c :: t) =
      if c = '/' then SegRes.delim [] t
      else if c = '\\' then
        match t with
        | [] => SegRes.fail []
        | d :: u => (scanL u).push d
      else (scanL t).push c := by
  cases t <;> rfl

theorem segOf_cons (c : Char) (t : List Char) :
    segOf (c :: t) =
      if c = '/' then []
      else if c = '\\' then
        match t with
        | [] => []
        | d :: u => d :: segOf u
      else c :: segOf t := by
  cases t <;> rfl

theorem restOf_cons (c : Char) (t : List Char) :
    restOf (c :: t) =
      if c = '/' then t
      else if c = '\\' then
        match t with
        | [] => []
        | _ :: u => restOf u
      else restOf t := by
  cases t <;> rfl

theorem unescapedDelims_cons (c : Char) (t : List Char) :
    unescapedDelims (c :: t) =
      if c = '/' then unescapedDelims t + 1
      else if c = '\\' then
        match t with
        | [] => 0
        | _ :: u => unescapedDelims u
      else unescapedDelims t := by
  cases t <;> rfl

theorem cleanTail_cons (c : Char) (t : List Char) :
    cleanTail (c :: t) =
      if c = '\\' then
        match t with
        | [] => false
        | _ :: u => cleanTail u
      else cleanTail t := by
  cases t <;> rfl

theorem unescape_cons (c : Char) (t : List Char) :
    unescape (c :: t) =
      if c = '\\' then
        match t with
        | [] => []
        | d :: u => d :: unescape u
      else c :: unescape t := by
  cases t <;> rfl

-- The slice-based scan `scanL` against the spec-side description of a
-- segment: `segOf`/`restOf`/`unescapedDelims`/`cleanTail` all walk the buffer
-- with the same escape-pair structure, so these go through by one structural
-- induction each.

theorem scanL_delim : ∀ s : List Char, 1 ≤ unescapedDelims s →
    scanL s = SegRes.delim (segOf s) (restOf s)
  | [] => by intro h; simp [unescapedDelims] at h
  | c :: t => by
    intro h
    by_cases hc : c = '/'
    · simp [scanL_cons, segOf_cons, restOf_cons, hc]
    · by_cases hb : c = '\\'
      · cases t with
        | nil => simp [unescapedDelims_cons, hc, hb] at h
        | cons d u =>
          have hu : 1 ≤ unescapedDelims u := by
            simpa [unescapedDelims_cons, hc, hb] using h
          simp [scanL_cons, segOf_cons, restOf_cons, hc, hb, scanL_delim u hu, SegRes.push]
      · have ht : 1 ≤ unescapedDelims t := by
          simpa [unescapedDelims_cons, hc, hb] using h
        simp [scanL_cons, segOf_cons, restOf_cons, hc, hb, scanL_delim t ht, SegRes.push]

theorem scanL_done : ∀ s : List Char, unescapedDelims s = 0 → cleanTail s = true →
    scanL s = SegRes.done (segOf s)
  | [] => by intro _ _; simp [scanL, segOf]
  | c :: t => by
    intro h hct
    by_cases hc : c = '/'
    · simp [unescapedDelims_cons, hc] at h
    · by_cases hb : c = '\\'
      · cases t with
        | nil => simp [cleanTail_cons, hb] at hct
        | cons d u =>
          have h1 : unescapedDelims u = 0 := by
            simpa [unescapedDelims_cons, hc, hb] using h
          have h2 : cleanTail u = true := by simpa [cleanTail_cons, hb] using hct
          simp [scanL_cons, segOf_cons, hc, hb, scanL_done u h1 h2, SegRes.push]
      · have h1 : unescapedDelims t = 0 := by
          simpa [unescapedDelims_cons, hc, hb] using h
        have h2 : cleanTail t = true := by simpa [cleanTail_cons, hb] using hct
        simp [scanL_cons, segOf_cons, hc, hb, scanL_done t h1 h2, SegRes.push]

theorem scanL_fail : ∀ s : List Char, unescapedDelims s = 0 → cleanTail s = false →
    scanL s = SegRes.fail (segOf s)
  | [] => by intro _ hct; simp [cleanTail] at hct
  | c :: t => by
    intro h hct
    by_cases hc : c = '/'
    · simp [unescapedDelims_cons, hc] at h
    · by_cases hb : c = '\\'
      · cases t with
        | nil => simp [scanL_cons, segOf_cons, hc, hb]
        | cons d u =>
          have h1 : unescapedDelims u = 0 := by
            simpa [unescapedDelims_cons, hc, hb] using h
          have h2 : cleanTail u = false := by simpa [cleanTail_cons, hb] using hct
          simp [scanL_cons, segOf_cons, hc, hb, scanL_fail u h1 h2, SegRes.push]
      · have h1 : unescapedDelims t = 0 := by
          simpa [unescapedDelims_cons, hc, hb] using h
        have h2 : cleanTail t = false := by simpa [cleanTail_cons, hb] using hct
        simp [scanL_cons, segOf_cons, hc, hb, scanL_fail t h1 h2, SegRes.push]

theorem delims_restOf : ∀ s : List Char, 1 ≤ unescapedDelims s →
    unescapedDelims (restOf s) + 1 = unescapedDelims s
  | [] => by intro h; simp [unescapedDelims] at h
  | c :: t => by
    intro h
    by_cases hc : c = '/'
    · simp [unescapedDelims_cons, restOf_cons, hc]
    · by_cases hb : c = '\\'
      · cases t with
        | nil => simp [unescapedDelims_cons, hc, hb] at h
        | cons d u =>
          have hu : 1 ≤ unescapedDelims u := by
            simpa [unescapedDelims_cons, hc, hb] using h
          simp [unescapedDelims_cons, restOf_cons, hc, hb, delims_restOf u hu]
      · have ht : 1 ≤ unescapedDelims t := by
          simpa [unescapedDelims_cons, hc, hb] using h
        simp [unescapedDelims_cons, restOf_cons, hc, hb, delims_restOf t ht]

theorem cleanTail_restOf : ∀ s : List Char, 1 ≤ unescapedDelims s →
    cleanTail (restOf s) = cleanTail s
  | [] => by intro h; simp [unescapedDelims] at h
  | c :: t => by
    intro h
    by_cases hc : c = '/'
    · simp [cleanTail_cons, restOf_cons, hc]
    · by_cases hb : c = '\\'
      · cases t with
        | nil => simp [unescapedDelims_cons, hc, hb] at h
        | cons d u =>
          have hu : 1 ≤ unescapedDelims u := by
            simpa [unescapedDelims_cons, hc, hb] using h
          simp [cleanTail_cons, restOf_cons, hc, hb, cleanTail_restOf u hu]
      · have ht : 1 ≤ unescapedDelims t := by
          simpa [unescapedDelims_cons, hc, hb] using h
        simp [cleanTail_cons, restOf_cons, hc, hb, cleanTail_restOf t ht]

theorem delims_of_no_slash : ∀ s : List Char, '/' ∉ s → unescapedDelims s = 0
  | [] => by intro _; simp [unescapedDelims]
  | c :: t => by
    intro h
    have hc : ¬ c = '/' := fun e => h (by simp [e])
    have ht : '/' ∉ t := fun m => h (by simp [m])
    by_cases hb : c = '\\'
    · cases t with
      | nil => simp [unescapedDelims_cons, hc, hb]
      | cons d u =>
        have hu : '/' ∉ u := fun m => ht (by simp [m])
        simp [unescapedDelims_cons, hc, hb, delims_of_no_slash u hu]
    · simp [unescapedDelims_cons, hc, hb, delims_of_no_slash t ht]

theorem segOf_eq_unescape : ∀ s : List Char, '/' ∉ s → segOf s = unescape s
  | [] => by intro _; simp [segOf, unescape]
  | c :: t => by
    intro h
    have hc : ¬ c = '/' := fun e => h (by simp [e])
    have ht : '/' ∉ t := fun m => h (by simp [m])
    by_cases hb : c = '\\'
    · cases t with
      | nil => simp [segOf_cons, unescape_cons, hc, hb]
      | cons d u =>
        have hu : '/' ∉ u := fun m => ht (by simp [m])
        simp [segOf_cons, unescape_cons, hc, hb, segOf_eq_unescape u hu]
    · simp [segOf_cons, unescape_cons, hc, hb, segOf_eq_unescape t ht]

-- The index-based scanning loop of `slashes` agrees with the slice-based
-- scanning loop of `S`: scanning from index `i` with enough budget behaves
-- like `scanL` on the suffix `s.drop i`, and the final index points at the
-- delimiter when one is found.

theorem scanSegAux_bridge (s : List Char) :
    ∀ k i, s.length ≤ k + i →
    (∀ seg, scanL (s.drop i) = SegRes.fail seg → scanSegAux s k i = ScanRes.err seg)
  ∧ (∀ seg, scanL (s.drop i) = SegRes.done seg →
      ∃ j, scanSegAux s k i = ScanRes.ok seg j ∧ s.length ≤ j)
  ∧ (∀ seg rest, scanL (s.drop i) = SegRes.delim seg rest →
      ∃ j, scanSegAux s k i = ScanRes.ok seg j ∧ j < s.length ∧ s.drop (j + 1) = rest) := by
  intro k
  induction k with
  | zero =>
    intro i hle
    have hd : s.drop i = [] := List.drop_eq_nil_of_le (by omega)
    rw [hd]
    refine ⟨?_, ?_, ?_⟩
    · intro seg hseg; simp [scanL] at hseg
    · intro seg hseg
      simp only [scanL, SegRes.done.injEq] at hseg
      exact ⟨i, by simp [scanSegAux, ← hseg], by omega⟩
    · intro seg rest hseg; simp [scanL] at hseg
  | succ k ih =>
    intro i hle
    by_cases hi : i < s.length
    · have hd : s.drop i = s[i] :: s.drop (i + 1) := List.drop_eq_getElem_cons hi
      by_cases hc : s[i] = '/'
      · have hL : scanL (s.drop i) = SegRes.delim [] (s.drop (i + 1)) := by
          rw [hd, scanL_cons, if_pos hc]
        have hA : scanSegAux s (k + 1) i = ScanRes.ok [] i := by
          simp [scanSegAux, hi, hc]
        refine ⟨?_, ?_, ?_⟩
        · intro seg hseg; rw [hL] at hseg; exact absurd hseg (by simp)
        · intro seg hseg; rw [hL] at hseg; exact absurd hseg (by simp)
        · intro seg rest hseg
          rw [hL] at hseg
          obtain ⟨h1, h2⟩ := SegRes.delim.inj hseg
          exact ⟨i, by rw [hA, h1], hi, h2⟩
      · by_cases hb : s[i] = '\\'
        · by_cases h2 : i + 1 < s.length
          · have hd2 : s.drop (i + 1) = s[i + 1] :: s.drop (i + 2) :=
              List.drop_eq_getElem_cons h2
            have hL : scanL (s.drop i) = (scanL (s.drop (i + 2))).push s[i + 1] := by
              rw [hd, scanL_cons, if_neg hc, if_pos hb, hd2]
            have hA : scanSegAux s (k + 1) i =
                (scanSegAux s k (i + 2)).push s[i + 1] := by
              simp [scanSegAux, hi, hc, hb, h2]
            have IH := ih (i + 2) (by omega)
            refine ⟨?_, ?_, ?_⟩
            · intro seg hseg
              rw [hL] at hseg
              cases hrec : scanL (s.drop (i + 2)) with
              | fail seg0 =>
                rw [hrec] at hseg
                obtain h1 := (by simpa [SegRes.push] using hseg : s[i + 1] :: seg0 = seg)
                rw [hA, IH.1 seg0 hrec]
                simp [ScanRes.push, h1]
              | done seg0 => rw [hrec] at hseg; simp [SegRes.push] at hseg
              | delim seg0 rest0 => rw [hrec] at hseg; simp [SegRes.push] at hseg
            · intro seg hseg
              rw [hL] at hseg
              cases hrec : scanL (s.drop (i + 2)) with
              | fail seg0 => rw [hrec] at hseg; simp [SegRes.push] at hseg
              | done seg0 =>
                rw [hrec] at hseg
                obtain h1 := (by simpa [SegRes.push] using hseg : s[i + 1] :: seg0 = seg)
                obtain ⟨j, hj, hge⟩ := IH.2.1 seg0 hrec
                exact ⟨j, by rw [hA, hj]; simp [ScanRes.push, h1], hge⟩
              | delim seg0 rest0 => rw [hrec] at hseg; simp [SegRes.push] at hseg
            · intro seg rest hseg
              rw [hL] at hseg
              cases hrec : scanL (s.drop (i + 2)) with
              | fail seg0 => rw [hrec] at hseg; simp [SegRes.push] at hseg
              | done seg0 => rw [hrec] at hseg; simp [SegRes.push] at hseg
              | delim seg0 rest0 =>
                rw [hrec] at hseg
                obtain ⟨h1, h3⟩ := (by simpa [SegRes.push] using hseg :
                  s[i + 1] :: seg0 = seg ∧ rest0 = rest)
                obtain ⟨j, hj, hlt, hrest⟩ := IH.2.2 seg0 rest0 hrec
                exact ⟨j, by rw [hA, hj]; simp [ScanRes.push, h1], hlt, by rw [hrest, h3]⟩
          · have hd2 : s.drop (i + 1) = [] := List.drop_eq_nil_of_le (by omega)
            have hL : scanL (s.drop i) = SegRes.fail [] := by
              rw [hd, scanL_cons, if_neg hc, if_pos hb, hd2]
            have hA : scanSegAux s (k + 1) i = ScanRes.err [] := by
              simp [scanSegAux, hi, hc, hb, h2]
            refine ⟨?_, ?_, ?_⟩
            · intro seg hseg
              rw [hL] at hseg
              obtain h1 := SegRes.fail.inj hseg
              rw [hA, h1]
            · intro seg hseg; rw [hL] at hseg; exact absurd hseg (by simp)
            · intro seg rest hseg; rw [hL] at hseg; exact absurd hseg (by simp)
        · have hL : scanL (s.drop i) = (scanL (s.drop (i + 1))).push s[i] := by
            rw [hd, scanL_cons, if_neg hc, if_neg hb]
          have hA : scanSegAux s (k + 1) i = (scanSegAux s k (i + 1)).push s[i] := by
            simp [scanSegAux, hi, hc, hb]
          have IH := ih (i + 1) (by omega)
          refine ⟨?_, ?_, ?_⟩
          · intro seg hseg
            rw [hL] at hseg
            cases hrec : scanL (s.drop (i + 1)) with
            | fail seg0 =>
              rw [hrec] at hseg
              obtain h1 := (by simpa [SegRes.push] using hseg : s[i] :: seg0 = seg)
              rw [hA, IH.1 seg0 hrec]
              simp [ScanRes.push, h1]
            | done seg0 => rw [hrec] at hseg; simp [SegRes.push] at hseg
            | delim seg0 rest0 => rw [hrec] at hseg; simp [SegRes.push] at hseg
          · intro seg hseg
            rw [hL] at hseg
            cases hrec : scanL (s.drop (i + 1)) with
            | fail seg0 => rw [hrec] at hseg; simp [SegRes.push] at hseg
            | done seg0 =>
              rw [hrec] at hseg
              obtain h1 := (by simpa [SegRes.push] using hseg : s[i] :: seg0 = seg)
              obtain ⟨j, hj, hge⟩ := IH.2.1 seg0 hrec
              exact ⟨j, by rw [hA, hj]; simp [ScanRes.push, h1], hge⟩
            | delim seg0 rest0 => rw [hrec] at hseg; simp [SegRes.push] at hseg
          · intro seg rest hseg
            rw [hL] at hseg
            cases hrec : scanL (s.drop (i + 1)) with
            | fail seg0 => rw [hrec] at hseg; simp [SegRes.push] at hseg
            | done seg0 => rw [hrec] at hseg; simp [SegRes.push] at hseg
            | delim seg0 rest0 =>
              rw [hrec] at hseg
              obtain ⟨h1, h3⟩ := (by simpa [SegRes.push] using hseg :
                s[i] :: seg0 = seg ∧ rest0 = rest)
              obtain ⟨j, hj, hlt, hrest⟩ := IH.2.2 seg0 rest0 hrec
              exact ⟨j, by rw [hA, hj]; simp [ScanRes.push, h1], hlt, by rw [hrest, h3]⟩
    · have hd : s.drop i = [] := List.drop_eq_nil_of_le (by omega)
      have hA : scanSegAux s (k + 1) i = ScanRes.ok [] i := by
        simp [scanSegAux, hi]
      rw [hd]
      refine ⟨?_, ?_, ?_⟩
      · intro seg hseg; simp [scanL] at hseg
      · intro seg hseg
        simp only [scanL, SegRes.done.injEq] at hseg
        exact ⟨i, by rw [hA, ← hseg], by omega⟩
      · intro seg rest hseg; simp [scanL] at hseg

/-- The index-based driver pass of `slashes` and the slice-based driver pass
of `S` classify every buffer identically and extract the same output-prefix,
pattern, replacement and remainder. -/
theorem driverStep_eq (s : List Char) : driverStep s = driverStepS s := by
  have B0 := scanSegAux_bridge s s.length 0 (by omega)
  rw [List.drop_zero] at B0
  cases hL1 : scanL s with
  | fail out =>
    have h1 := B0.1 out hL1
    simp [driverStep, driverStepS, h1, hL1]
  | done out =>
    obtain ⟨j1, hj1, hge1⟩ := B0.2.1 out hL1
    have B1 := scanSegAux_bridge s s.length (j1 + 1) (by omega)
    have hd1 : s.drop (j1 + 1) = [] := List.drop_eq_nil_of_le (by omega)
    rw [hd1] at B1
    obtain ⟨j2, hj2, hge2⟩ := B1.2.1 [] (by simp [scanL])
    have B2 := scanSegAux_bridge s s.length (j2 + 1) (by omega)
    have hd2 : s.drop (j2 + 1) = [] := List.drop_eq_nil_of_le (by omega)
    rw [hd2] at B2
    obtain ⟨j3, hj3, hge3⟩ := B2.2.1 [] (by simp [scanL])
    simp [driverStep, driverStepS, hj1, hj2, hj3, hL1, hge3]
  | delim out s1 =>
    obtain ⟨j1, hj1, hlt1, hrest1⟩ := B0.2.2 out s1 hL1
    have B1 := scanSegAux_bridge s s.length (j1 + 1) (by omega)
    rw [hrest1] at B1
    cases hL2 : scanL s1 with
    | fail pat =>
      have h2 := B1.1 pat hL2
      simp [driverStep, driverStepS, hj1, h2, hL1, hL2]
    | done pat =>
      obtain ⟨j2, hj2, hge2⟩ := B1.2.1 pat hL2
      have B2 := scanSegAux_bridge s s.length (j2 + 1) (by omega)
      have hd2 : s.drop (j2 + 1) = [] := List.drop_eq_nil_of_le (by omega)
      rw [hd2] at B2
      obtain ⟨j3, hj3, hge3⟩ := B2.2.1 [] (by simp [scanL])
      simp [driverStep, driverStepS, hj1, hj2, hj3, hL1, hL2, hge3]
    | delim pat s2 =>
      obtain ⟨j2, hj2, hlt2, hrest2⟩ := B1.2.2 pat s2 hL2
      have B2 := scanSegAux_bridge s s.length (j2 + 1) (by omega)
      rw [hrest2] at B2
      cases hL3 : scanL s2 with
      | fail rep =>
        have h3 := B2.1 rep hL3
        simp [driverStep, driverStepS, hj1, hj2, h3, hL1, hL2, hL3]
      | done rep =>
        obtain ⟨j3, hj3, hge3⟩ := B2.2.1 rep hL3
        simp [driverStep, driverStepS, hj1, hj2, hj3, hL1, hL2, hL3, hge3]
      | delim rep rest =>
        obtain ⟨j3, hj3, hlt3, hrest3⟩ := B2.2.2 rep rest hL3
        have hn3 : ¬ s.length ≤ j3 := by omega
        simp [driverStep, driverStepS, hj1, hj2, hj3, hL1, hL2, hL3, hn3, hrest3]

-- The Rewriter: behaviour of the substitution loops on the empty pattern and
-- agreement of the two loops away from the empty-buffer/empty-pattern corner.

theorem occurs_nil_pat (s : List Char) : occurs [] s = true := by
  cases s <;> simp [occurs, List.isPrefixOf]

theorem occurs_empty_buffer (pat : List Char) (h : pat ≠ []) : occurs pat [] = false := by
  simp [occurs, List.isEmpty_iff, h]

theorem replaceFirst_nil_pat (s rep : List Char) : replaceFirst s [] rep = rep ++ s := by
  cases s <;> simp [replaceFirst, List.isPrefixOf]

theorem substFix_nil_pat (rep : List Char) : ∀ n s, substFix [] rep n s = none
  | 0, s => by simp [substFix, occurs_nil_pat]
  | n + 1, s => by
    simp [substFix, occurs_nil_pat, substFix_nil_pat rep n (replaceFirst s [] rep)]

theorem substFixS_nil_pat (rep : List Char) :
    ∀ n s, s ≠ [] → substFixS [] rep n s = none
  | 0, s, h => by simp [substFixS, occurs_nil_pat, List.isEmpty_iff, h]
  | n + 1, s, h => by
    have h2 : replaceFirst s [] rep ≠ [] := by
      rw [replaceFirst_nil_pat]
      simp [List.append_eq_nil, h]
    simp [substFixS, occurs_nil_pat, List.isEmpty_iff, h,
      substFixS_nil_pat rep n (replaceFirst s [] rep) h2]

theorem substFix_eqS (pat rep : List Char) (hpat : pat ≠ []) :
    ∀ n s, substFix pat rep n s = substFixS pat rep n s
  | 0, s => by
    cases s with
    | nil => simp [substFix, substFixS, occurs_empty_buffer pat hpat]
    | cons c t => simp [substFix, substFixS]
  | n + 1, s => by
    cases s with
    | nil => simp [substFix, substFixS, occurs_empty_buffer pat hpat]
    | cons c t =>
      simp only [substFix, substFixS, List.isEmpty_cons, Bool.not_false, Bool.true_and]
      exact if_congr Iff.rfl (substFix_eqS pat rep hpat n (replaceFirst (c :: t) pat rep)) rfl

-- Monotonicity in the fuel: once the embedded run halts it halts with the
-- same output at every larger budget, so halting and its output are
-- well-defined notions for the real (unbounded) run.

theorem substFix_mono (pat rep : List Char) :
    ∀ n s r, substFix pat rep n s = some r → substFix pat rep (n + 1) s = some r
  | 0, s, r => by
    intro h
    by_cases ho : occurs pat s
    · simp [substFix, ho] at h
    · simp [substFix, ho] at h ⊢; exact h
  | n + 1, s, r => by
    intro h
    by_cases ho : occurs pat s
    · simp only [substFix, if_pos ho] at h ⊢
      exact substFix_mono pat rep n (replaceFirst s pat rep) r h
    · simp only [substFix, if_neg ho] at h ⊢; exact h

theorem slashes_succ (n : Nat) (s : List Char) :
    slashes (n + 1) s =
      if s.isEmpty then RunRes.halt []
      else
        match driverStep s with
        | .crash out => RunRes.crash out
        | .halt out => RunRes.halt out
        | .next out pat rep rest =>
          match substFix pat rep n rest with
          | none => RunRes.more out
          | some s2 => (slashes n s2).addOut out := rfl

theorem slashes_mono (o : List Char) :
    ∀ n s, slashes n s = RunRes.halt o → slashes (n + 1) s = RunRes.halt o
  | 0, s => by intro h; simp [slashes] at h
  | n + 1, s => by
    intro h
    rw [slashes_succ n s] at h
    rw [slashes_succ (n + 1) s]
    by_cases hs : s.isEmpty
    · simp only [if_pos hs] at h ⊢; exact h
    · cases hd : driverStep s with
      | crash out => simp [hs, hd] at h
      | halt out =>
        simp only [if_neg hs, hd] at h ⊢
        exact h
      | next out pat rep rest =>
        cases hsub : substFix pat rep n rest with
        | none => simp [hs, hd, hsub] at h
        | some s2 =>
          have hsub2 := substFix_mono pat rep n rest s2 hsub
          simp only [if_neg hs, hd, hsub, hsub2] at h ⊢
          cases hrec : slashes n s2 with
          | halt o2 =>
            rw [hrec] at h
            rw [slashes_mono o2 n s2 hrec]
            simpa [RunRes.addOut] using h
          | crash o2 => rw [hrec] at h; simp [RunRes.addOut] at h
          | more o2 => rw [hrec] at h; simp [RunRes.addOut] at h

theorem slashes_mono_le (o : List Char) (s : List Char) (n m : Nat) (hle : n ≤ m)
    (h : slashes n s = RunRes.halt o) : slashes m s = RunRes.halt o := by
  obtain ⟨d, rfl⟩ := Nat.exists_eq_add_of_le hle
  clear hle
  induction d with
  | zero => exact h
  | succ d ihd =>
    rw [Nat.add_succ]
    exact slashes_mono o (n + d) s ihd

theorem slashes_halt_unique (s o1 o2 : List Char) (n m : Nat)
    (h1 : slashes n s = RunRes.halt o1) (h2 : slashes m s = RunRes.halt o2) :
    o1 = o2 := by
  rcases Nat.le_total n m with hle | hle
  · rw [slashes_mono_le o1 s n m hle h1] at h2
    exact RunRes.halt.inj h2
  · rw [slashes_mono_le o2 s m n hle h2] at h1
    exact (RunRes.halt.inj h1).symm

-- One-step unfolding of the two run functions for each driver outcome.

theorem S_succ (n : Nat) (s : List Char) :
    S (n + 1) s =
      if s.isEmpty then RunRes.halt []
      else
        match driverStepS s with
        | .crash out => RunRes.crash out
        | .halt out => RunRes.halt out
        | .next out pat rep rest =>
          match substFixS pat rep n rest with
          | none => RunRes.more out
          | some s2 => (S n s2).addOut out := rfl

theorem slashes_step_crash (n : Nat) (s out : List Char) (hne : s.isEmpty = false)
    (hd : driverStep s = StepRes.crash out) : slashes (n + 1) s = RunRes.crash out := by
  rw [slashes_succ n s]; simp [hne, hd]

theorem slashes_step_halt (n : Nat) (s out : List Char) (hne : s.isEmpty = false)
    (hd : driverStep s = StepRes.halt out) : slashes (n + 1) s = RunRes.halt out := by
  rw [slashes_succ n s]; simp [hne, hd]

theorem slashes_step_stuck (n : Nat) (s out pat rep rest : List Char)
    (hne : s.isEmpty = false) (hd : driverStep s = StepRes.next out pat rep rest)
    (hsub : substFix pat rep n rest = none) : slashes (n + 1) s = RunRes.more out := by
  rw [slashes_succ n s]; simp [hne, hd, hsub]

theorem slashes_step_sub (n : Nat) (s out pat rep rest s2 : List Char)
    (hne : s.isEmpty = false) (hd : driverStep s = StepRes.next out pat rep rest)
    (hsub : substFix pat rep n rest = some s2) :
    slashes (n + 1) s = (slashes n s2).addOut out := by
  rw [slashes_succ n s]; simp [hne, hd, hsub]

theorem S_step_crash (n : Nat) (s out : List Char) (hne : s.isEmpty = false)
    (hd : driverStepS s = StepRes.crash out) : S (n + 1) s = RunRes.crash out := by
  rw [S_succ n s]; simp [hne, hd]

theorem S_step_halt (n : Nat) (s out : List Char) (hne : s.isEmpty = false)
    (hd : driverStepS s = StepRes.halt out) : S (n + 1) s = RunRes.halt out := by
  rw [S_succ n s]; simp [hne, hd]

theorem S_step_stuck (n : Nat) (s out pat rep rest : List Char)
    (hne : s.isEmpty = false) (hd : driverStepS s = StepRes.next out pat rep rest)
    (hsub : substFixS pat rep n rest = none) : S (n + 1) s = RunRes.more out := by
  rw [S_succ n s]; simp [hne, hd, hsub]

theorem S_step_sub (n : Nat) (s out pat rep rest s2 : List Char)
    (hne : s.isEmpty = false) (hd : driverStepS s = StepRes.next out pat rep rest)
    (hsub : substFixS pat rep n rest = some s2) :
    S (n + 1) s = (S n s2).addOut out := by
  rw [S_succ n s]; simp [hne, hd, hsub]

theorem substFixS_empty_buffer (pat rep : List Char) (n : Nat) :
    substFixS pat rep n [] = some [] := by
  cases n <;> simp [substFixS]

/-- When fewer than three unescaped delimiters are present and the buffer has
no lone trailing escape marker, the driver pass halts with the output-prefix:
whichever scan runs off the end does so cleanly, the later scans are no-ops,
and no rule is extracted. -/
theorem driverStepS_incomplete (s : List Char) (hct : cleanTail s = true)
    (hdel : unescapedDelims s < 3) : driverStepS s = StepRes.halt (segOf s) := by
  rcases Nat.eq_zero_or_pos (unescapedDelims s) with h0 | h1
  · simp [driverStepS, scanL_done s h0 hct]
  · have e1 := scanL_delim s h1
    have d1 := delims_restOf s h1
    have c1 := cleanTail_restOf s h1
    rcases Nat.eq_zero_or_pos (unescapedDelims (restOf s)) with g0 | g1
    · have e2 := scanL_done (restOf s) g0 (by rw [c1]; exact hct)
      simp [driverStepS, e1, e2]
    · have e2 := scanL_delim (restOf s) g1
      have d2 := delims_restOf (restOf s) g1
      have c2 := cleanTail_restOf (restOf s) g1
      have k0 : unescapedDelims (restOf (restOf s)) = 0 := by omega
      have e3 := scanL_done (restOf (restOf s)) k0 (by rw [c2, c1]; exact hct)
      simp [driverStepS, e1, e2, e3]

-- The claims.

/-- Claim C1: for every buffer with at least three unescaped `/` delimiters,
the scanner pass splits it into exactly four parts — the output-prefix before
the first unescaped `/`, the pattern between the first and second, the
replacement between the second and third, and the remainder after the third —
where inside each segment an escape marker and the character after it
contribute that character literally (marker dropped), and an escaped `/`
never terminates a segment. -/
theorem c1_scanner_four_parts (s : List Char) (h : 3 ≤ unescapedDelims s) :
    driverStep s =
      StepRes.next (segOf s) (segOf (restOf s)) (segOf (restOf (restOf s)))
        (restOf (restOf (restOf s))) := by
  rw [driverStep_eq]
  have h1 : 1 ≤ unescapedDelims s := by omega
  have d1 := delims_restOf s h1
  have h2 : 1 ≤ unescapedDelims (restOf s) := by omega
  have d2 := delims_restOf (restOf s) h2
  have h3 : 1 ≤ unescapedDelims (restOf (restOf s)) := by omega
  simp [driverStepS, scanL_delim s h1, scanL_delim (restOf s) h2,
    scanL_delim (restOf (restOf s)) h3]

/-- Witness for C1 at the buffer `"a\/b/p\/q/r/tail"`: three unescaped
delimiters, escaped delimiters land literally in their segments. -/
theorem c1_witness :
    3 ≤ unescapedDelims "a\\/b/p\\/q/r/tail".toList ∧
      driverStep "a\\/b/p\\/q/r/tail".toList =
        StepRes.next (segOf "a\\/b/p\\/q/r/tail".toList)
          (segOf (restOf "a\\/b/p\\/q/r/tail".toList))
          (segOf (restOf (restOf "a\\/b/p\\/q/r/tail".toList)))
          (restOf (restOf (restOf "a\\/b/p\\/q/r/tail".toList))) :=
  ⟨by decide, c1_scanner_four_parts "a\\/b/p\\/q/r/tail".toList (by decide)⟩

/-- Claim C2: whenever a complete rule with an empty pattern is extracted
(three unescaped delimiters with nothing between the first and second), the
interpreter never terminates and emits nothing beyond the already-yielded
output-prefix, for every remainder buffer including the empty one: at every
fuel the run is still unfinished with exactly that prefix emitted. -/
theorem c2_empty_pattern_diverges (s out rep rest : List Char)
    (h : driverStep s = StepRes.next out [] rep rest) :
    ∀ n, slashes (n + 1) s = RunRes.more out := by
  intro n
  have hne : s.isEmpty = false := by
    cases s with
    | nil =>
      exact StepRes.noConfusion ((rfl : driverStep [] = StepRes.halt []).symm.trans h)
    | cons c t => rfl
  exact slashes_step_stuck n s out [] rep rest hne h (substFix_nil_pat rep n rest)

/-- Witness for C2 at `"///x"`: the rule `(pattern, replacement) = ("", "")`
is captured with remainder `"x"` and the run is still unfinished with no
output at fuel 1. -/
theorem c2_witness : slashes 1 "///x".toList = RunRes.more [] :=
  c2_empty_pattern_diverges "///x".toList [] [] "x".toList (by decide) 0

/-- Claim C3 (code bug): for inputs with no `/` at all the run is supposed to
emit the input with every escape marker removed and the escaped characters
passed through literally, and halt.  This holds whenever the input does not
end in a lone escape marker (first conjunct), but the input `"\"` — no `/`,
a single escape marker — makes the scanner read past the end of the buffer:
the Python code raises `IndexError` instead of halting (second conjunct). -/
theorem c3_no_delimiter_output :
    (∀ s : List Char, '/' ∉ s → cleanTail s = true →
      ∀ n, slashes (n + 1) s = RunRes.halt (unescape s)) ∧
      slashes 1 "\\".toList = RunRes.crash [] := by
  constructor
  · intro s hs hct n
    cases s with
    | nil => rw [slashes_succ]; rfl
    | cons c t =>
      have hd0 : unescapedDelims (c :: t) = 0 := delims_of_no_slash (c :: t) hs
      have hstep : driverStep (c :: t) = StepRes.halt (segOf (c :: t)) := by
        rw [driverStep_eq]
        exact driverStepS_incomplete (c :: t) hct (by omega)
      rw [segOf_eq_unescape (c :: t) hs] at hstep
      exact slashes_step_halt n (c :: t) (unescape (c :: t)) rfl hstep
  · rfl

/-- Witness for the first conjunct of C3 at `"a\bc"`: output `"abc"`, halt. -/
theorem c3_witness : slashes 1 "a\\bc".toList = RunRes.halt "abc".toList :=
  c3_no_delimiter_output.1 "a\\bc".toList (by decide) (by decide) 0

/-- Claim C4 (code bug): with fewer than three unescaped delimiters the
interpreter is supposed to emit exactly the output-prefix before the first
unescaped `/` (the whole unescaped buffer if there is none) and halt without
substituting anything.  This holds whenever the buffer does not end in a lone
escape marker (first conjunct, halting at every fuel with exactly the prefix),
but on `"x/y\"` — one delimiter, trailing escape marker — the pattern scan
reads past the end of the buffer and the Python code raises `IndexError`
after emitting `"x"` instead of halting (second conjunct). -/
theorem c4_incomplete_rule_halt :
    (∀ s : List Char, cleanTail s = true → unescapedDelims s < 3 →
      ∀ n, slashes (n + 1) s = RunRes.halt (segOf s)) ∧
      slashes 1 "x/y\\".toList = RunRes.crash ['x'] := by
  constructor
  · intro s hct hdel n
    cases s with
    | nil => rw [slashes_succ]; rfl
    | cons c t =>
      have hstep : driverStep (c :: t) = StepRes.halt (segOf (c :: t)) := by
        rw [driverStep_eq]
        exact driverStepS_incomplete (c :: t) hct hdel
      exact slashes_step_halt n (c :: t) (segOf (c :: t)) rfl hstep
  · rfl

/-- Witness for the first conjunct of C4 at `"ab\/c/pat"`: one unescaped
delimiter, prefix `"ab/c"` emitted, halt. -/
theorem c4_witness :
    slashes 1 "ab\\/c/pat".toList = RunRes.halt "ab/c".toList :=
  c4_incomplete_rule_halt.1 "ab\\/c/pat".toList (by decide) (by decide) 0

/-- Claim C5 counterexample: `slashes("//anything")` terminates — already at
fuel 1 the run halts (with no output), contradicting the claim that it never
terminates. -/
theorem c5_counterexample : slashes 1 "//anything".toList = RunRes.halt [] := rfl

/-- Claim C5 (amended): `slashes("//anything")` emits no output and halts
immediately: the buffer has only two unescaped delimiters, so the rule is
incomplete and the run halts at every fuel, with empty output.  (The
divergence the original claim describes needs a third delimiter, as in C2.) -/
theorem c5_amended_halts :
    ∀ n, slashes (n + 1) "//anything".toList = RunRes.halt [] := by
  intro n
  exact slashes_mono_le [] "//anything".toList 1 (n + 1) (by omega) rfl

/-- Claim C6 counterexample: the run of
`"/ world! world!/Hello,/ world! world! world!"` does not halt with output
`"Hello, world! world!"`: it halts with `"Hello, world!"` (the single
substitution rewrites the first two of the three `" world!"` blocks), and
halting output is unique. -/
theorem c6_counterexample :
    ¬ haltsWith HELLO_WORLD_1 "Hello, world! world!".toList := by
  rintro ⟨n, hn⟩
  have h2 : slashes 2 HELLO_WORLD_1 = RunRes.halt "Hello, world!".toList := rfl
  exact absurd (slashes_halt_unique HELLO_WORLD_1 _ _ n 2 hn h2) (by decide)

/-- Claim C6 (amended): the run of
`"/ world! world!/Hello,/ world! world! world!"` halts with output exactly
`"Hello, world!"`. -/
theorem c6_amended_output : haltsWith HELLO_WORLD_1 "Hello, world!".toList :=
  ⟨2, rfl⟩

/-- Claim C7 counterexample: the run of `"/foo/Hello, world!//bar/foo/bar"`
does not halt with total output `"Hello, world!bar"`: the second extracted
rule `(bar → Hello, world!)` rewrites the final remainder `"bar"` before it
is printed, so the run halts with `"Hello, world!"`, and halting output is
unique. -/
theorem c7_counterexample :
    ¬ haltsWith HELLO_WORLD_2 "Hello, world!bar".toList := by
  rintro ⟨n, hn⟩
  have h2 : slashes 3 HELLO_WORLD_2 = RunRes.halt "Hello, world!".toList := rfl
  exact absurd (slashes_halt_unique HELLO_WORLD_2 _ _ n 3 hn h2) (by decide)

/-- Claim C7 (amended): the run of `"/foo/Hello, world!//bar/foo/bar"` halts
with total output exactly `"Hello, world!"`. -/
theorem c7_amended_output : haltsWith HELLO_WORLD_2 "Hello, world!".toList :=
  ⟨3, rfl⟩

/-- Claim C8 (code bug): a buffer ending in an unescaped escape marker is
supposed to drop the marker silently and proceed.  Instead the scanning loops
step the index past the end and read `string[N]`, so the Python code raises
`IndexError`: during output-prefix scanning (`"a\"`, after yielding `"a"`),
during pattern scanning (`"x/y\"`, after yielding `"x"`), and during
replacement scanning (`"x/y/z\"`, after yielding `"x"`). -/
theorem c8_trailing_escape_crash :
    slashes 1 "a\\".toList = RunRes.crash ['a'] ∧
      slashes 1 "x/y\\".toList = RunRes.crash ['x'] ∧
      slashes 1 "x/y/z\\".toList = RunRes.crash ['x'] :=
  ⟨rfl, rfl, rfl⟩

/-- Claim C9: if the pattern does not occur in a buffer (the buffer is a
fixpoint for the pattern), the Rewriter's substitution loop returns the buffer
unchanged, for every replacement and every step budget. -/
theorem c9_fixpoint_identity (pat b : List Char) (h : occurs pat b = false) :
    ∀ (rep : List Char) (n : Nat), substFix pat rep n b = some b := by
  intro rep n
  cases n <;> simp [substFix, h]

/-- Witness for C9: `"x"` does not occur in `"ab"` and the loop returns
`"ab"` unchanged. -/
theorem c9_witness :
    occurs "x".toList "ab".toList = false ∧
      substFix "x".toList "y".toList 5 "ab".toList = some "ab".toList :=
  ⟨by decide, c9_fixpoint_identity "x".toList "ab".toList (by decide) "y".toList 5⟩

/-- Claim C10 counterexample: on the program `"///"` the two interpreters
disagree about halting.  `slashes` captures the empty-pattern rule with empty
remainder and its rewriting loop `while pat in string:` runs forever
(`"" in ""` is true in Python), so at every fuel the run is unfinished with no
output; the compact `S` guards its loop with the extra truthiness test
`while s and ...`, skips the loop on the empty remainder, and halts. -/
theorem c10_counterexample :
    divergesSilent "///".toList ∧ S 2 "///".toList = RunRes.halt [] := by
  constructor
  · intro n
    cases n with
    | zero => rfl
    | succ m =>
      exact slashes_step_stuck m "///".toList [] [] [] [] rfl (by decide)
        (substFix_nil_pat [] m [])
  · rfl

/-- Claim C10 (amended): at every fuel, the compact interpreter `S` computes
exactly the same result as `slashes` — same outputs, same halting, same
`IndexError` crashes — except that `S` may have already halted with the same
output where `slashes` is still running: that happens exactly when a captured
rule has an empty pattern and an empty remainder (as on `"///"`), where
`slashes` diverges but `S` halts.  In particular the two runs always agree on
every character of output. -/
theorem c10_amended_agreement :
    ∀ (n : Nat) (s : List Char),
      slashes n s = S n s ∨
        ∃ out, slashes n s = RunRes.more out ∧
          (S n s = RunRes.halt out ∨ S n s = RunRes.more out) := by
  intro n
  induction n with
  | zero => intro s; left; rfl
  | succ m ih =>
    intro s
    by_cases hs : s.isEmpty = true
    · left
      rw [slashes_succ m s, S_succ m s, if_pos hs, if_pos hs]
    · have hne : s.isEmpty = false := by simpa using hs
      cases hd : driverStep s with
      | crash out =>
        left
        rw [slashes_step_crash m s out hne hd,
          S_step_crash m s out hne (driverStep_eq s ▸ hd)]
      | halt out =>
        left
        rw [slashes_step_halt m s out hne hd,
          S_step_halt m s out hne (driverStep_eq s ▸ hd)]
      | next out pat rep rest =>
        have hdS : driverStepS s = StepRes.next out pat rep rest := driverStep_eq s ▸ hd
        by_cases hpat : pat = []
        · subst hpat
          by_cases hrest : rest = []
          · subst hrest
            right
            refine ⟨out, slashes_step_stuck m s out [] rep [] hne hd
              (substFix_nil_pat rep m []), ?_⟩
            rw [S_step_sub m s out [] rep [] [] hne hdS
              (substFixS_empty_buffer [] rep m)]
            cases m with
            | zero => right; simp [S, RunRes.addOut]
            | succ k =>
              left
              have hSnil : S (k + 1) [] = RunRes.halt [] := by rw [S_succ k]; rfl
              rw [hSnil]
              simp [RunRes.addOut]
          · left
            rw [slashes_step_stuck m s out [] rep rest hne hd
              (substFix_nil_pat rep m rest),
              S_step_stuck m s out [] rep rest hne hdS
              (substFixS_nil_pat rep m rest hrest)]
        · cases hsub : substFixS pat rep m rest with
          | none =>
            left
            rw [slashes_step_stuck m s out pat rep rest hne hd
              (by rw [substFix_eqS pat rep hpat m rest]; exact hsub),
              S_step_stuck m s out pat rep rest hne hdS hsub]
          | some s2 =>
            have hfix : substFix pat rep m rest = some s2 := by
              rw [substFix_eqS pat rep hpat m rest]; exact hsub
            rw [slashes_step_sub m s out pat rep rest s2 hne hd hfix,
              S_step_sub m s out pat rep rest s2 hne hdS hsub]
            rcases ih s2 with heq | ⟨o2, h1, h2⟩
            · left; rw [heq]
            · right
              refine ⟨out ++ o2, by rw [h1]; rfl, ?_⟩
              rcases h2 with h2 | h2
              · left; rw [h2]; rfl
              · right; rw [h2]; rfl
